import Mathlib

/-!
Shallow embedding of `optbayesexpt/particlepdf.py` (class `ParticlePDF`).

Numpy float arrays are modelled over `ℚ`; a particle matrix is a
`List (List ℚ)` in the same `[dimension, particle]` row layout as the
numpy array `self.particles` (row `i` holds the `n_particles` samples of
parameter `i`).  Randomness (`self.rng`) is abstracted as an oracle
supplying the outputs of `rng.choice` and `rng.multivariate_normal`;
the embedded methods are deterministic in the oracle.  A Python method
that can raise becomes a function returning the post-call object state
paired with `Option PdfError` (`none` = normal return), because a raised
exception in Python leaves any already-performed attribute assignments
in place.
-/

set_option autoImplicit false

namespace ParticlePdf

/-- Errors surfaced by the code.  `DimensionMismatch` stands for the
`ValueError` raised on a length mismatch (the explicit check in
`set_pdf`, and numpy's broadcast failure in `bayesian_update`). -/
inductive PdfError where
  | DimensionMismatch : PdfError
deriving DecidableEq

/-- The `tuning_parameters` dict of `ParticlePDF.__init__`. -/
structure Tuning where
  a_param : ℚ
  resample_threshold : ℚ
  auto_resample : Bool
deriving DecidableEq

/-- Defaults set in `__init__`: `a_param = 0.98`, `resample_threshold = 0.5`,
`auto_resample = True`. -/
def defaultTuning : Tuning :=
  { a_param := 98 / 100, resample_threshold := 1 / 2, auto_resample := true }

/-- The mutable attributes of a `ParticlePDF` instance (minus the random
generator, which the oracle abstracts).  `n_dims` and `n_particles` are
always recomputed from `particles` immediately after every assignment to
it, so they are modelled as derived quantities. -/
structure ParticlePDF where
  particles : List (List ℚ)
  particle_weights : List ℚ
  just_resampled : Bool
  tuning_parameters : Tuning
deriving DecidableEq

/-- `self.n_dims = self.particles.shape[0]`. -/
def n_dims (st : ParticlePDF) : ℕ := st.particles.length

/-- `self.n_particles = self.particles.shape[-1]` (trailing dimension of a
rectangular 2-D array: the common row length). -/
def n_particles (st : ParticlePDF) : ℕ := (st.particles.headD []).length

/-- Oracle for the instance random generator `self.rng`:
`choice n size p` yields the indices returned by
`rng.choice(n, size=size, p=p)`, and `mvnormal mean cov size` yields the
`size` sample vectors returned by
`rng.multivariate_normal(mean, cov, size)`. -/
structure Oracle where
  choice : ℕ → ℕ → List ℚ → List ℕ
  mvnormal : List ℚ → List (List ℚ) → ℕ → List (List ℚ)

/-- `np.ones(n) / n`: the uniform weight vector. -/
def uniformWeights (n : ℕ) : List ℚ := List.replicate n (1 / (n : ℚ))

/-- Elementwise product summed: `a @ b` / `np.sum(a * b)` for equal-length
1-D arrays. -/
def dot (a b : List ℚ) : ℚ := (List.zipWith (· * ·) a b).sum

/-- Numpy 1-D broadcasting of `a * b`: equal lengths multiply elementwise,
a length-1 operand is broadcast across the other, anything else raises
`ValueError` (modelled as `none`). -/
def broadcastMul (a b : List ℚ) : Option (List ℚ) :=
  if a.length = b.length then some (List.zipWith (· * ·) a b)
  else if a.length = 1 then some (b.map (fun x => a.headD 0 * x))
  else if b.length = 1 then some (a.map (fun x => x * b.headD 0))
  else none

/-- Column `j` of a row-major matrix (entries past a row's end read as 0;
all uses are guarded by shape hypotheses). -/
def getCol (m : List (List ℚ)) (j : ℕ) : List ℚ := m.map (fun row => row.getD j 0)

/-- `ParticlePDF.__init__(prior)`: particles from the prior, uniform
weights, `just_resampled = False`, default tuning. -/
def construct (prior : List (List ℚ)) : ParticlePDF :=
  { particles := prior
    particle_weights := uniformWeights (prior.headD []).length
    just_resampled := false
    tuning_parameters := defaultTuning }

/-- `ParticlePDF.set_pdf(samples, weights)`.  The code first assigns
`self.particles` (and the derived `n_particles`, `n_dims`) and only then
validates the length of `weights`, so the error case returns the state
with `particles` already replaced. -/
def set_pdf (st : ParticlePDF) (samples : List (List ℚ))
    (weights : Option (List ℚ)) : ParticlePDF × Option PdfError :=
  let st1 : ParticlePDF := { st with particles := samples }
  match weights with
  | none =>
      ({ st1 with particle_weights := uniformWeights (n_particles st1) }, none)
  | some w =>
      if w.length ≠ n_particles st1 then
        (st1, some PdfError.DimensionMismatch)
      else
        ({ st1 with particle_weights := w.map (fun x => x / w.sum) }, none)

/-- `ParticlePDF.mean()`: `np.average(particles, axis=1, weights=w)`, the
per-dimension weighted average `Σ_j p[i][j]·w[j] / Σ_j w[j]`. -/
def mean (st : ParticlePDF) : List ℚ :=
  st.particles.map (fun row => dot row st.particle_weights / st.particle_weights.sum)

/-- The denominator `np.cov` uses with `aweights = w` and the default
`ddof = 1`: `fact = Σw − Σw²/Σw`, clamped to 0 when nonpositive. -/
def covFact (w : List ℚ) : ℚ :=
  let fact := w.sum - dot w w / w.sum
  if fact ≤ 0 then 0 else fact

/-- `ParticlePDF.covariance()`: `np.cov(particles, aweights=w)`, i.e.
entry `(i,k)` is `Σ_j w[j]·(p[i][j] − μ[i])·(p[k][j] − μ[k]) / covFact w`
with `μ = mean()`.  The `n_dims == 1` reshape branch of the code restores
the `1×1` shape that `np.cov` squeezes away; the embedding keeps the
matrix shape throughout, which coincides with the reshaped result. -/
def covariance (st : ParticlePDF) : List (List ℚ) :=
  let w := st.particle_weights
  let mu := mean st
  let X := List.zipWith (fun row m => row.map (fun x => x - m)) st.particles mu
  X.map (fun ri => X.map (fun rk =>
    dot (List.zipWith (· * ·) ri w) rk / covFact w))

/-- `ParticlePDF.randdraw(n_draws)`: draws indices from the weighted
distribution via the rng, then returns the selected columns as an
`n_dims × n_draws` matrix.  The method assigns no instance attribute, so
the returned post-call state is the input state. -/
def randdraw (st : ParticlePDF) (n_draws : ℕ) (o : Oracle) :
    List (List ℚ) × ParticlePDF :=
  let indices := o.choice (n_particles st) n_draws st.particle_weights
  (st.particles.map (fun param => indices.map (fun k => param.getD k 0)), st)

/-- Transpose of a rectangular row-major matrix with `r` columns
(numpy `.T`); row `j` of the result is column `j` of `m`. -/
def transposeN (r : ℕ) (m : List (List ℚ)) : List (List ℚ) :=
  (List.range r).map (fun j => getCol m j)

/-- Elementwise vector sum (numpy `+` on equal-length 1-D arrays). -/
def vecAdd (a b : List ℚ) : List ℚ := List.zipWith (· + ·) a b

/-- Scalar times vector (numpy `array * scalar`). -/
def vecSmul (c : ℚ) (v : List ℚ) : List ℚ := v.map (fun x => c * x)

/-- Scalar times matrix (numpy `scalar * array` on a 2-D array). -/
def matSmul (c : ℚ) (m : List (List ℚ)) : List (List ℚ) :=
  m.map (fun row => row.map (fun x => c * x))

/-- `ParticlePDF.resample()`: draw `n_particles` columns with `randdraw`,
shrink each drawn column toward the pre-resample mean by `a_param`, add
the rng's multivariate-normal nudges with mean `origin = zeros` and
covariance `(1 − a_param²)·covariance()`, store the nudged points as the
new particles and reset the weights to uniform. -/
def resample (st : ParticlePDF) (o : Oracle) : ParticlePDF :=
  let coords := (randdraw st (n_particles st) o).1
  let origin : List ℚ := List.replicate (n_dims st) 0
  let covar := covariance st
  let old_center := mean st
  let a := st.tuning_parameters.a_param
  let newcovar := matSmul (1 - a ^ 2) covar
  let newcenters := (transposeN (n_particles st) coords).map
    (fun row => vecAdd (vecSmul a row) (vecSmul (1 - a) old_center))
  let nudged := List.zipWith vecAdd newcenters
    (o.mvnormal origin newcovar (n_particles st))
  { st with particles := transposeN (n_dims st) nudged
            particle_weights := uniformWeights (n_particles st) }

/-- The effective sample size `n_eff = 1 / (w @ w)` computed by
`resample_test`. -/
def n_eff (w : List ℚ) : ℚ := 1 / dot w w

/-- `ParticlePDF.resample_test()`: resample and set `just_resampled = True`
when `n_eff / n_particles` falls below the threshold, otherwise only set
`just_resampled = False`. -/
def resample_test (st : ParticlePDF) (o : Oracle) : ParticlePDF :=
  if n_eff st.particle_weights / (n_particles st : ℚ) <
      st.tuning_parameters.resample_threshold then
    { resample st o with just_resampled := true }
  else
    { st with just_resampled := false }

/-- `ParticlePDF.bayesian_update(likelihood)`: `temp = w * likelihood`
(numpy broadcasting; incompatible lengths raise before any mutation),
then `w := temp / Σ temp`, then `resample_test()` when
`auto_resample` is set. -/
def bayesian_update (st : ParticlePDF) (likelihood : List ℚ) (o : Oracle) :
    ParticlePDF × Option PdfError :=
  match broadcastMul st.particle_weights likelihood with
  | none => (st, some PdfError.DimensionMismatch)
  | some temp =>
      let st1 : ParticlePDF :=
        { st with particle_weights := temp.map (fun x => x / temp.sum) }
      if st1.tuning_parameters.auto_resample then
        (resample_test st1 o, none)
      else
        (st1, none)

/-- The indices drawn by `resample` (the `rng.choice` call inside
`randdraw(self.n_particles)`). -/
def resampleIndices (st : ParticlePDF) (o : Oracle) : List ℕ :=
  o.choice (n_particles st) (n_particles st) st.particle_weights

/-- The jitter vectors drawn by `resample`: the output of
`rng.multivariate_normal(origin, newcovar, n_particles)` with
`origin = zeros(n_dims)` and `newcovar = (1 − a_param²)·covariance()`. -/
def resampleJitter (st : ParticlePDF) (o : Oracle) : List (List ℚ) :=
  o.mvnormal (List.replicate (n_dims st) 0)
    (matSmul (1 - st.tuning_parameters.a_param ^ 2) (covariance st))
    (n_particles st)

/-- The frequency-style weighted covariance the spec describes for
`covariance()`: `Σ_j w[j]·(p[:,j] − mean)·(p[:,j] − mean)ᵀ`, with no
denominator correction.  Stated from the spec's words, to be compared
with the embedded `covariance`. -/
def covariance_spec (st : ParticlePDF) : List (List ℚ) :=
  let w := st.particle_weights
  let mu := mean st
  let X := List.zipWith (fun row m => row.map (fun x => x - m)) st.particles mu
  X.map (fun ri => X.map (fun rk => dot (List.zipWith (· * ·) ri w) rk))

/-! ### Concrete instances used by witnesses and counterexamples -/

/-- Oracle always drawing index 0 and zero-mean jitter equal to the mean
argument (the zero vector). -/
def o0 : Oracle :=
  { choice := fun _ size _ => List.replicate size 0
    mvnormal := fun mu _ size => List.replicate size mu }

/-- A two-particle, one-dimensional state with uniform weights and default
tuning. -/
def stA : ParticlePDF :=
  { particles := [[0, 1]]
    particle_weights := [1 / 2, 1 / 2]
    just_resampled := false
    tuning_parameters := defaultTuning }

/-- A copy of `stA` with `auto_resample` disabled. -/
def stZ : ParticlePDF :=
  { stA with tuning_parameters := { defaultTuning with auto_resample := false } }

/-! ### Helper lemmas -/

theorem sum_map_div (l : List ℚ) (c : ℚ) :
    (l.map (fun x => x / c)).sum = l.sum / c := by
  induction l with
  | nil => simp
  | cons a t ih => simp [ih, add_div]

theorem sum_uniformWeights (n : ℕ) (hn : 1 ≤ n) : (uniformWeights n).sum = 1 := by
  have hne : (n : ℚ) ≠ 0 := Nat.cast_ne_zero.mpr (Nat.one_le_iff_ne_zero.mp hn)
  simp [uniformWeights, List.sum_replicate, nsmul_eq_mul]
  exact mul_inv_cancel₀ hne

theorem getD_map_of_lt {α β : Type} (f : α → β) (l : List α) (j : ℕ)
    (hj : j < l.length) (d : β) (d' : α) :
    (l.map f).getD j d = f (l.getD j d') := by
  induction l generalizing j with
  | nil => simp at hj
  | cons a t ih =>
      cases j with
      | zero => simp
      | succ j => simpa using ih j (by simpa using hj)

theorem getD_range_map (l : List ℚ) (n : ℕ) (hl : l.length = n) :
    (List.range n).map (fun i => l.getD i 0) = l := by
  apply List.ext_get (by simp [hl])
  intro i h1 h2
  have hi : i < n := by simpa using h1
  have hi' : i < l.length := hl ▸ hi
  simp [List.getD_eq_getElem?_getD, List.getElem?_eq_getElem hi']

theorem getD_eq_getElem {α : Type} (l : List α) (j : ℕ) (hj : j < l.length)
    (d : α) : l.getD j d = l[j] := by
  rw [List.getD_eq_getElem?_getD, List.getElem?_eq_getElem hj]
  rfl

theorem getD_mem {α : Type} (l : List α) (j : ℕ) (hj : j < l.length) (d : α) :
    l.getD j d ∈ l := by
  rw [getD_eq_getElem l j hj d]
  exact List.getElem_mem hj

theorem getD_range (r j : ℕ) (hj : j < r) : (List.range r).getD j 0 = j := by
  rw [getD_eq_getElem _ j (by simpa using hj) 0]
  simp

theorem getD_zipWith {α β γ : Type} (f : α → β → γ) (a : List α) (b : List β)
    (j : ℕ) (ha : j < a.length) (hb : j < b.length) (d : γ) (da : α) (db : β) :
    (List.zipWith f a b).getD j d = f (a.getD j da) (b.getD j db) := by
  induction a generalizing b j with
  | nil => simp at ha
  | cons x t ih =>
      cases b with
      | nil => simp at hb
      | cons y u =>
          cases j with
          | zero => simp
          | succ j => simpa using ih u j (by simpa using ha) (by simpa using hb)

/-! ### C1 -/

/-- C1 (amended): when `set_pdf` is given a weights sequence whose length
differs from the new particle count, it raises the `ValueError`
(`DimensionMismatch`) and leaves `particle_weights`, `just_resampled`
and the tuning untouched, but `particles` (hence `n_dims` and
`n_particles`) have already been replaced by the supplied samples: the
failure is not atomic. -/
theorem set_pdf_mismatch_keeps_weights (st : ParticlePDF) (samples : List (List ℚ))
    (w : List ℚ) (hw : w.length ≠ (samples.headD []).length) :
    set_pdf st samples (some w) =
      ({ st with particles := samples }, some PdfError.DimensionMismatch) := by
  have hw' : w.length ≠ (samples.head?.getD []).length := by
    simpa [List.headD_eq_head?] using hw
  simp [set_pdf, n_particles, hw']

theorem set_pdf_mismatch_keeps_weights_witness :
    set_pdf stA [[5, 6, 7]] (some [1, 2]) =
      ({ stA with particles := [[5, 6, 7]] }, some PdfError.DimensionMismatch) :=
  set_pdf_mismatch_keeps_weights stA [[5, 6, 7]] [1, 2] (by simp)

/-- C1 (counterexample): a mismatched `set_pdf` call on a concrete state
raises `DimensionMismatch` yet does not leave the distribution state as
it was — the particle matrix after the call differs from the one before,
so the operation is not atomic. -/
theorem set_pdf_mismatch_not_atomic :
    (set_pdf stA [[5, 6, 7]] (some [1, 2])).2 = some PdfError.DimensionMismatch ∧
    (set_pdf stA [[5, 6, 7]] (some [1, 2])).1.particles ≠ stA.particles := by
  constructor
  · norm_num [set_pdf, n_particles, stA]
  · norm_num [set_pdf, n_particles, stA]

/-! ### C2 -/

/-- C2 (counterexample): `covariance()` does not compute the
frequency-style weighted covariance `Σ_j w[j]·(x_j − μ)·(x_j − μ)ᵀ`: on
the two-particle state `stA` the code (via `np.cov` with `aweights` and
its default `ddof = 1`) returns `[[1/2]]` while the frequency-style
formula gives `[[1/4]]`. -/
theorem covariance_not_frequency_style :
    covariance stA ≠ covariance_spec stA := by
  simp [covariance, covariance_spec, mean, dot, covFact, stA]
  norm_num

/-- C2 (amended): for weights summing to 1 with `Σ w² < 1`, `covariance()`
returns the reliability-weighted estimate: the frequency-style weighted
covariance divided by the effective-sample-size correction `1 − Σ w²`
(`np.cov`'s `fact = Σw − ddof·Σw²/Σw` with `ddof = 1`). -/
theorem covariance_is_reliability_weighted (st : ParticlePDF)
    (hsum : st.particle_weights.sum = 1)
    (hfact : 0 < 1 - dot st.particle_weights st.particle_weights) :
    covariance st =
      matSmul (1 / (1 - dot st.particle_weights st.particle_weights))
        (covariance_spec st) := by
  have hcf : covFact st.particle_weights =
      1 - dot st.particle_weights st.particle_weights := by
    simp [covFact, hsum, not_le.mpr hfact]
  simp only [covariance, covariance_spec, matSmul, List.map_map]
  apply List.map_congr_left
  intro ri _
  simp only [Function.comp, List.map_map]
  apply List.map_congr_left
  intro rk _
  simp only [Function.comp]
  rw [hcf, div_eq_mul_inv, one_div, mul_comm]

theorem covariance_is_reliability_weighted_witness :
    covariance stA =
      matSmul (1 / (1 - dot stA.particle_weights stA.particle_weights))
        (covariance_spec stA) :=
  covariance_is_reliability_weighted stA (by norm_num [stA])
    (by norm_num [stA, dot])

/-! ### C3 -/

/-- C3 (counterexample): a likelihood of length 1 on a two-particle state
does not raise: numpy broadcasting accepts it and the update proceeds,
so `bayesian_update` does not fail for every length `≠ n_particles`. -/
theorem bayesian_update_length_mismatch_accepted :
    n_particles stA = 2 ∧ (bayesian_update stA [2] o0).2 = none := by
  refine ⟨rfl, ?_⟩
  norm_num [bayesian_update, broadcastMul, stA, resample_test, n_eff, dot,
    n_particles, defaultTuning]

/-- C3 (amended): when the likelihood length is incompatible with the
weight vector even under numpy broadcasting (neither side of length 1 and
lengths unequal), `bayesian_update` raises the broadcast `ValueError`
(`DimensionMismatch`) before any mutation: the returned state is exactly
the input state. -/
theorem bayesian_update_mismatch_atomic (st : ParticlePDF) (l : List ℚ)
    (o : Oracle) (h1 : l.length ≠ st.particle_weights.length)
    (h2 : l.length ≠ 1) (h3 : st.particle_weights.length ≠ 1) :
    bayesian_update st l o = (st, some PdfError.DimensionMismatch) := by
  have h1' : st.particle_weights.length ≠ l.length := fun h => h1 h.symm
  have e : broadcastMul st.particle_weights l = none := by
    simp [broadcastMul, h1', h2, h3]
  simp [bayesian_update, e]

theorem bayesian_update_mismatch_atomic_witness :
    bayesian_update stA [1, 2, 3] o0 = (stA, some PdfError.DimensionMismatch) :=
  bayesian_update_mismatch_atomic stA [1, 2, 3] o0 (by simp [stA])
    (by simp) (by simp [stA])

/-! ### C4 -/

/-- C4 (counterexample): on a concrete state, a likelihood of all zeros
makes the renormalization denominator `Σ w·likelihood` exactly zero, yet
`bayesian_update` raises no error at all — there is no `DegenerateUpdate`
(or any other) error path; the code divides by the zero sum regardless
(in the float implementation this silently stores non-finite weights). -/
theorem bayesian_update_zero_denominator_silent :
    (List.zipWith (· * ·) stZ.particle_weights [(0 : ℚ), 0]).sum = 0 ∧
    (bayesian_update stZ [0, 0] o0).2 = none := by
  constructor
  · norm_num [stZ, stA, List.zipWith]
  · norm_num [bayesian_update, broadcastMul, stZ, stA, defaultTuning]

/-- C4 (amended): `bayesian_update` with a likelihood of matching length
never raises: in particular a zero renormalization denominator is not
surfaced as an explicit error — the renormalizing division is performed
unconditionally (under IEEE floats this silently yields non-finite
weights, the behavior the spec flags as an open question). -/
theorem bayesian_update_matching_never_errors (st : ParticlePDF)
    (l : List ℚ) (o : Oracle) (hlen : l.length = st.particle_weights.length) :
    (bayesian_update st l o).2 = none := by
  have e : broadcastMul st.particle_weights l =
      some (List.zipWith (· * ·) st.particle_weights l) := by
    simp [broadcastMul, hlen]
  simp only [bayesian_update, e]
  split <;> rfl

theorem bayesian_update_matching_never_errors_witness :
    (bayesian_update stZ [0, 0] o0).2 = none :=
  bayesian_update_matching_never_errors stZ [0, 0] o0 (by simp [stZ, stA])

/-! ### C5 -/

/-- C5: `resample_test` compares `n_eff = 1/(w·w)` against
`resample_threshold · n_particles`: it resamples and sets
`just_resampled := true` exactly when `n_eff / n_particles` is below the
threshold, otherwise it leaves the state alone apart from setting
`just_resampled := false`; and the result never depends on the previous
value of `just_resampled` (the flag is overwritten, not latched).  The
hypothesis `w·w ≠ 0` excludes the all-zero weight vector, on which the
float code computes an infinite `n_eff` instead of a rational one. -/
theorem resample_test_spec (st : ParticlePDF) (o : Oracle)
    (_hww : dot st.particle_weights st.particle_weights ≠ 0) :
    ((resample_test st o).just_resampled = true ↔
      n_eff st.particle_weights / (n_particles st : ℚ) <
        st.tuning_parameters.resample_threshold) ∧
    (n_eff st.particle_weights / (n_particles st : ℚ) <
        st.tuning_parameters.resample_threshold →
      resample_test st o = { resample st o with just_resampled := true }) ∧
    (¬ n_eff st.particle_weights / (n_particles st : ℚ) <
        st.tuning_parameters.resample_threshold →
      resample_test st o = { st with just_resampled := false }) ∧
    (∀ b : Bool, resample_test { st with just_resampled := b } o =
      resample_test st o) := by
  refine ⟨?_, ?_, ?_, ?_⟩
  · by_cases hc : n_eff st.particle_weights / (n_particles st : ℚ) <
        st.tuning_parameters.resample_threshold <;>
      simp [resample_test, hc]
  · intro hc ; simp [resample_test, hc]
  · intro hc ; simp [resample_test, hc]
  · intro b ; rfl

theorem resample_test_spec_witness :
    (resample_test stA o0).just_resampled = true ↔
      n_eff stA.particle_weights / (n_particles stA : ℚ) <
        stA.tuning_parameters.resample_threshold :=
  (resample_test_spec stA o0 (by norm_num [stA, dot, List.zipWith])).1

/-! ### C7 -/

theorem resample_weights (st : ParticlePDF) (o : Oracle) :
    (resample st o).particle_weights = uniformWeights (n_particles st) := rfl

theorem resample_test_weights_sum (st : ParticlePDF) (o : Oracle)
    (h1 : st.particle_weights.sum = 1) (hn : 1 ≤ n_particles st) :
    (resample_test st o).particle_weights.sum = 1 := by
  unfold resample_test
  split
  · simpa [resample_weights] using sum_uniformWeights _ hn
  · simpa using h1

/-- C7: every successful mutating operation leaves `particle_weights`
summing exactly to 1 (exact rational arithmetic in place of the float
tolerance): construction, `set_pdf` with or without explicit weights
(nonzero weight sum, matching length), `bayesian_update` with a
matching-length likelihood and nonzero renormalization denominator, and
`resample`. -/
theorem weights_sum_to_one :
    (∀ prior : List (List ℚ), 1 ≤ (prior.headD []).length →
      (construct prior).particle_weights.sum = 1) ∧
    (∀ (st : ParticlePDF) (samples : List (List ℚ)),
      1 ≤ (samples.headD []).length →
      ((set_pdf st samples none).1).particle_weights.sum = 1) ∧
    (∀ (st : ParticlePDF) (samples : List (List ℚ)) (w : List ℚ),
      w.length = (samples.headD []).length → w.sum ≠ 0 →
      ((set_pdf st samples (some w)).1).particle_weights.sum = 1) ∧
    (∀ (st : ParticlePDF) (l : List ℚ) (o : Oracle),
      l.length = st.particle_weights.length →
      (List.zipWith (· * ·) st.particle_weights l).sum ≠ 0 →
      1 ≤ n_particles st →
      ((bayesian_update st l o).1).particle_weights.sum = 1) ∧
    (∀ (st : ParticlePDF) (o : Oracle), 1 ≤ n_particles st →
      (resample st o).particle_weights.sum = 1) := by
  refine ⟨?_, ?_, ?_, ?_, ?_⟩
  · intro prior hn
    exact sum_uniformWeights _ hn
  · intro st samples hn
    exact sum_uniformWeights _ hn
  · intro st samples w hlen hsum
    have hlen' : w.length = (samples.head?.getD []).length := by
      simpa [List.headD_eq_head?] using hlen
    simp [set_pdf, n_particles, hlen', sum_map_div, div_self hsum]
  · intro st l o hlen hden hn
    have e : broadcastMul st.particle_weights l =
        some (List.zipWith (· * ·) st.particle_weights l) := by
      simp [broadcastMul, hlen]
    have hsum1 : ((List.zipWith (· * ·) st.particle_weights l).map
        (fun x => x / (List.zipWith (· * ·) st.particle_weights l).sum)).sum = 1 := by
      rw [sum_map_div, div_self hden]
    simp only [bayesian_update, e]
    split
    · exact resample_test_weights_sum _ o hsum1 hn
    · exact hsum1
  · intro st o hn
    simpa [resample_weights] using sum_uniformWeights _ hn

/-! ### Matrix access lemmas -/

theorem length_getCol (m : List (List ℚ)) (j : ℕ) :
    (getCol m j).length = m.length := by
  simp [getCol]

theorem length_transposeN (d : ℕ) (m : List (List ℚ)) :
    (transposeN d m).length = d := by
  simp [transposeN]

theorem getD_transposeN (r : ℕ) (m : List (List ℚ)) (j : ℕ) (hj : j < r) :
    (transposeN r m).getD j [] = getCol m j := by
  unfold transposeN
  rw [getD_map_of_lt _ _ j (by simpa using hj) [] 0, getD_range r j hj]

theorem getCol_transposeN (m : List (List ℚ)) (d j : ℕ) (hj : j < m.length)
    (hrow : (m.getD j []).length = d) :
    getCol (transposeN d m) j = m.getD j [] := by
  unfold getCol transposeN
  rw [List.map_map]
  rw [List.map_congr_left (g := fun i => (m.getD j []).getD i 0) ?_]
  · exact getD_range_map _ d hrow
  · intro i _
    simp only [Function.comp_apply, getCol]
    exact getD_map_of_lt _ m j hj 0 []

theorem getCol_randdraw (st : ParticlePDF) (nd : ℕ) (o : Oracle) (j : ℕ)
    (hj : j < (o.choice (n_particles st) nd st.particle_weights).length) :
    getCol (randdraw st nd o).1 j =
      getCol st.particles
        ((o.choice (n_particles st) nd st.particle_weights).getD j 0) := by
  unfold getCol randdraw
  rw [List.map_map]
  apply List.map_congr_left
  intro p _
  simp only [Function.comp_apply]
  exact getD_map_of_lt _ _ j hj 0 0

theorem weights_sum_to_one_witness :
    (construct [[0, 1]]).particle_weights.sum = 1 ∧
    ((set_pdf stA [[3, 4]] none).1).particle_weights.sum = 1 ∧
    ((set_pdf stA [[3, 4]] (some [1, 3])).1).particle_weights.sum = 1 ∧
    ((bayesian_update stA [1, 1] o0).1).particle_weights.sum = 1 ∧
    (resample stA o0).particle_weights.sum = 1 :=
  ⟨weights_sum_to_one.1 [[0, 1]] (by norm_num),
   weights_sum_to_one.2.1 stA [[3, 4]] (by norm_num),
   weights_sum_to_one.2.2.1 stA [[3, 4]] [1, 3] (by norm_num) (by norm_num),
   weights_sum_to_one.2.2.2.1 stA [1, 1] o0 (by simp [stA])
     (by norm_num [stA, List.zipWith]) (by norm_num [n_particles, stA]),
   weights_sum_to_one.2.2.2.2 stA o0 (by norm_num [n_particles, stA])⟩

/-! ### C10 -/

/-- C10: `randdraw` is a pure read: the instance state after the call is
exactly the state before it (only the abstracted random generator
advances), and the returned matrix has `n_dims` rows of `n_draws` entries
whose every column is a column of `particles` (the one selected by the
drawn index).  Hypotheses state that the generator's `choice` output has
the requested size and in-range indices, and that the particle matrix is
rectangular, as numpy guarantees. -/
theorem randdraw_frame_and_columns (st : ParticlePDF) (n_draws : ℕ)
    (o : Oracle) (_hnd : 1 ≤ n_draws)
    (hlen : (o.choice (n_particles st) n_draws st.particle_weights).length =
      n_draws)
    (hrange : ∀ k ∈ o.choice (n_particles st) n_draws st.particle_weights,
      k < n_particles st)
    (_hrect : ∀ row ∈ st.particles, row.length = n_particles st) :
    ((randdraw st n_draws o).2 = st) ∧
    ((randdraw st n_draws o).1.length = n_dims st) ∧
    (∀ row ∈ (randdraw st n_draws o).1, row.length = n_draws) ∧
    (∀ j, j < n_draws → ∃ i, i < n_particles st ∧
      getCol (randdraw st n_draws o).1 j = getCol st.particles i) := by
  refine ⟨rfl, by simp [randdraw, n_dims], ?_, ?_⟩
  · intro row hrow
    obtain ⟨p, _, rfl⟩ := List.mem_map.mp hrow
    simpa using hlen
  · intro j hj
    have hj' : j < (o.choice (n_particles st) n_draws st.particle_weights).length := by
      rw [hlen] ; exact hj
    refine ⟨(o.choice (n_particles st) n_draws st.particle_weights).getD j 0,
      hrange _ (getD_mem _ j hj' 0), ?_⟩
    exact getCol_randdraw st n_draws o j hj'

theorem randdraw_frame_and_columns_witness :
    ((randdraw stA 3 o0).2 = stA) ∧
    ((randdraw stA 3 o0).1.length = n_dims stA) ∧
    (∀ row ∈ (randdraw stA 3 o0).1, row.length = 3) ∧
    (∀ j, j < 3 → ∃ i, i < n_particles stA ∧
      getCol (randdraw stA 3 o0).1 j = getCol stA.particles i) :=
  randdraw_frame_and_columns stA 3 o0 (by norm_num)
    (by simp [o0, stA, n_particles])
    (by simp [o0, stA, n_particles])
    (by simp [stA, n_particles])

/-! ### C9 -/

theorem zipWith_replicate_mul (n : ℕ) (a b : ℚ) :
    List.zipWith (· * ·) (List.replicate n a) (List.replicate n b) =
      List.replicate n (a * b) := by
  induction n with
  | zero => rfl
  | succ n ih => simp [List.replicate_succ, ih]

theorem dot_uniform (n : ℕ) (hn : (n : ℚ) ≠ 0) :
    dot (uniformWeights n) (uniformWeights n) = 1 / n := by
  rw [uniformWeights, dot, zipWith_replicate_mul, List.sum_replicate,
    nsmul_eq_mul]
  field_simp

theorem resample_test_uniform_no_resample (st : ParticlePDF) (o : Oracle)
    (n : ℕ) (hn : 1 ≤ n) (hw : st.particle_weights = uniformWeights n)
    (hp : n_particles st = n)
    (hthr : st.tuning_parameters.resample_threshold ≤ 1) :
    resample_test st o = { st with just_resampled := false } := by
  have hne : (n : ℚ) ≠ 0 := Nat.cast_ne_zero.mpr (Nat.one_le_iff_ne_zero.mp hn)
  have hcond : ¬ (n_eff st.particle_weights / (n_particles st : ℚ) <
      st.tuning_parameters.resample_threshold) := by
    rw [hw, hp, n_eff, dot_uniform n hne, one_div_one_div, div_self hne]
    exact not_lt.mpr hthr
  simp [resample_test, hcond]

/-- C9: on a state with uniform weights `1/n_particles` and default tuning
(`resample_threshold = 0.5`, so `n_eff/n_particles = 1` is at or above it),
`bayesian_update` with an all-ones likelihood is an identity up to the
`just_resampled` flag: weights stay uniform, particles are untouched, and
no resampling is triggered (`just_resampled` comes back `false`). -/
theorem bayesian_update_uniform_identity (n : ℕ) (hn : 1 ≤ n)
    (st : ParticlePDF) (o : Oracle)
    (hw : st.particle_weights = uniformWeights n)
    (hp : n_particles st = n)
    (ht : st.tuning_parameters = defaultTuning) :
    bayesian_update st (List.replicate n 1) o =
      ({ st with just_resampled := false }, none) := by
  have e : broadcastMul st.particle_weights (List.replicate n (1 : ℚ)) =
      some st.particle_weights := by
    rw [hw]
    simp [broadcastMul, uniformWeights, zipWith_replicate_mul]
  have hsum : st.particle_weights.sum = 1 := by
    rw [hw] ; exact sum_uniformWeights n hn
  have hmap : st.particle_weights.map
      (fun x => x / st.particle_weights.sum) = st.particle_weights := by
    rw [hsum] ; simp
  have hauto : st.tuning_parameters.auto_resample = true := by
    rw [ht] ; rfl
  simp only [bayesian_update, e, hmap, hauto, if_true]
  rw [resample_test_uniform_no_resample st o n hn hw hp
    (by rw [ht] ; norm_num [defaultTuning])]

theorem bayesian_update_uniform_identity_witness :
    bayesian_update stA (List.replicate 2 1) o0 =
      ({ stA with just_resampled := false }, none) :=
  bayesian_update_uniform_identity 2 (by norm_num) stA o0
    (by norm_num [stA, uniformWeights, List.replicate_succ]) rfl rfl

/-! ### C6 -/

theorem headD_eq_getD {α : Type} (l : List α) (d : α) : l.headD d = l.getD 0 d := by
  cases l <;> rfl

/-- The particle matrix stored by `resample`, written out: the transpose of
the shrunk-and-nudged draw, with the jitter supplied by the oracle at mean
zero and covariance `(1 − a²)·covariance()` (see `resampleJitter`). -/
theorem resample_particles (st : ParticlePDF) (o : Oracle) :
    (resample st o).particles =
      transposeN (n_dims st)
        (List.zipWith vecAdd
          ((transposeN (n_particles st) (randdraw st (n_particles st) o).1).map
            (fun row => vecAdd (vecSmul st.tuning_parameters.a_param row)
              (vecSmul (1 - st.tuning_parameters.a_param) (mean st))))
          (resampleJitter st o)) := rfl

/-- C6: `resample` replaces the particles by `n_particles` jittered points
of the same dimensions and the weights by the uniform vector: column `j`
of the new particle matrix is
`a_param · particles[:, idx j] + (1 − a_param) · mean()` plus the `j`-th
jitter vector, where `idx` are the weighted draws and the jitter is the
multivariate-normal sample requested from the generator with mean zero
and covariance `(1 − a_param²) · covariance()` (the arguments fixed by
`resampleJitter`).  Hypotheses record the shapes numpy guarantees for the
generator outputs and the particle matrix. -/
theorem resample_characterization (st : ParticlePDF) (o : Oracle)
    (hd : 1 ≤ n_dims st)
    (hidxlen : (resampleIndices st o).length = n_particles st)
    (_hidxrange : ∀ k ∈ resampleIndices st o, k < n_particles st)
    (hjitlen : (resampleJitter st o).length = n_particles st)
    (hjitrows : ∀ row ∈ resampleJitter st o, row.length = n_dims st)
    (_hrect : ∀ row ∈ st.particles, row.length = n_particles st) :
    ((resample st o).particle_weights = uniformWeights (n_particles st)) ∧
    (n_dims (resample st o) = n_dims st) ∧
    (n_particles (resample st o) = n_particles st) ∧
    (∀ j, j < n_particles st →
      getCol (resample st o).particles j =
        vecAdd
          (vecAdd
            (vecSmul st.tuning_parameters.a_param
              (getCol st.particles ((resampleIndices st o).getD j 0)))
            (vecSmul (1 - st.tuning_parameters.a_param) (mean st)))
          ((resampleJitter st o).getD j [])) := by
  have hnclen :
      ((transposeN (n_particles st) (randdraw st (n_particles st) o).1).map
        (fun row => vecAdd (vecSmul st.tuning_parameters.a_param row)
          (vecSmul (1 - st.tuning_parameters.a_param) (mean st)))).length =
      n_particles st := by
    rw [List.length_map, length_transposeN]
  have hnudlen :
      (List.zipWith vecAdd
        ((transposeN (n_particles st) (randdraw st (n_particles st) o).1).map
          (fun row => vecAdd (vecSmul st.tuning_parameters.a_param row)
            (vecSmul (1 - st.tuning_parameters.a_param) (mean st))))
        (resampleJitter st o)).length = n_particles st := by
    rw [List.length_zipWith, hnclen, hjitlen, Nat.min_self]
  have hrowj : ∀ j, j < n_particles st →
      (List.zipWith vecAdd
        ((transposeN (n_particles st) (randdraw st (n_particles st) o).1).map
          (fun row => vecAdd (vecSmul st.tuning_parameters.a_param row)
            (vecSmul (1 - st.tuning_parameters.a_param) (mean st))))
        (resampleJitter st o)).getD j [] =
        vecAdd
          (vecAdd
            (vecSmul st.tuning_parameters.a_param
              (getCol st.particles ((resampleIndices st o).getD j 0)))
            (vecSmul (1 - st.tuning_parameters.a_param) (mean st)))
          ((resampleJitter st o).getD j []) := by
    intro j hj
    rw [getD_zipWith vecAdd _ _ j (by rw [hnclen] ; exact hj)
      (by rw [hjitlen] ; exact hj) [] [] []]
    congr 1
    rw [getD_map_of_lt _ _ j (by rw [length_transposeN] ; exact hj) [] []]
    rw [getD_transposeN _ _ j hj]
    rw [getCol_randdraw st (n_particles st) o j (by
      have h : (o.choice (n_particles st) (n_particles st)
          st.particle_weights).length = n_particles st := hidxlen
      rw [h] ; exact hj)]
    rfl
  have hrowlen : ∀ j, j < n_particles st →
      ((List.zipWith vecAdd
        ((transposeN (n_particles st) (randdraw st (n_particles st) o).1).map
          (fun row => vecAdd (vecSmul st.tuning_parameters.a_param row)
            (vecSmul (1 - st.tuning_parameters.a_param) (mean st))))
        (resampleJitter st o)).getD j []).length = n_dims st := by
    intro j hj
    rw [hrowj j hj]
    have hjr : ((resampleJitter st o).getD j []).length = n_dims st :=
      hjitrows _ (getD_mem _ j (by rw [hjitlen] ; exact hj) [])
    rw [List.getD_eq_getElem?_getD] at hjr
    simp [vecAdd, vecSmul, length_getCol, mean, n_dims, hjr]
  refine ⟨rfl, ?_, ?_, ?_⟩
  · show (resample st o).particles.length = n_dims st
    rw [resample_particles, length_transposeN]
  · show ((resample st o).particles.headD []).length = n_particles st
    rw [resample_particles, headD_eq_getD, getD_transposeN _ _ 0 hd,
      length_getCol, hnudlen]
  · intro j hj
    rw [resample_particles,
      getCol_transposeN _ _ j (by rw [hnudlen] ; exact hj) (hrowlen j hj),
      hrowj j hj]

theorem resample_characterization_witness :
    ((resample stA o0).particle_weights = uniformWeights (n_particles stA)) ∧
    (getCol (resample stA o0).particles 0 =
      vecAdd
        (vecAdd
          (vecSmul stA.tuning_parameters.a_param
            (getCol stA.particles ((resampleIndices stA o0).getD 0 0)))
          (vecSmul (1 - stA.tuning_parameters.a_param) (mean stA)))
        ((resampleJitter stA o0).getD 0 [])) :=
  ⟨(resample_characterization stA o0 (by norm_num [n_dims, stA])
      (by simp [resampleIndices, o0, stA, n_particles])
      (by simp [resampleIndices, o0, stA, n_particles])
      (by simp [resampleJitter, o0, stA, n_particles])
      (by simp [resampleJitter, o0, stA, n_particles, n_dims])
      (by simp [stA, n_particles])).1,
   (resample_characterization stA o0 (by norm_num [n_dims, stA])
      (by simp [resampleIndices, o0, stA, n_particles])
      (by simp [resampleIndices, o0, stA, n_particles])
      (by simp [resampleJitter, o0, stA, n_particles])
      (by simp [resampleJitter, o0, stA, n_particles, n_dims])
      (by simp [stA, n_particles])).2.2.2 0 (by norm_num [n_particles, stA])⟩

/-! ### C8 -/

theorem mul_self_eq_self_iff (a : ℚ) : a * a = a ↔ a = 0 ∨ a = 1 := by
  constructor
  · intro h
    have h2 : a * (a - 1) = 0 := by linear_combination h
    rcases mul_eq_zero.mp h2 with h3 | h3
    · exact Or.inl h3
    · exact Or.inr (by linarith)
  · rintro (rfl | rfl) <;> ring

theorem dot_self_eq_sum_sq (w : List ℚ) :
    dot w w = (w.map (fun x => x * x)).sum := by
  induction w with
  | nil => rfl
  | cons a t ih =>
      have h : dot (a :: t) (a :: t) = a * a + dot t t := by simp [dot]
      rw [h, ih] ; simp

theorem all_zero_of_nonneg_sum_zero (l : List ℚ) (h : ∀ x ∈ l, 0 ≤ x)
    (hs : l.sum = 0) : ∀ x ∈ l, x = 0 := by
  induction l with
  | nil => simp
  | cons a t ih =>
      have ha : 0 ≤ a := h a (by simp)
      have ht : ∀ x ∈ t, 0 ≤ x := fun x hx => h x (by simp [hx])
      have hts : 0 ≤ t.sum := List.sum_nonneg ht
      have hsum : a + t.sum = 0 := by simpa using hs
      intro x hx
      rcases List.mem_cons.mp hx with rfl | hx
      · linarith
      · exact ih ht (by linarith) x hx

theorem sum_sq_le_sum (w : List ℚ) (h01 : ∀ x ∈ w, 0 ≤ x ∧ x ≤ 1) :
    (w.map (fun x => x * x)).sum ≤ w.sum := by
  induction w with
  | nil => simp
  | cons a t ih =>
      obtain ⟨ha0, ha1⟩ := h01 a (by simp)
      have ht : ∀ x ∈ t, 0 ≤ x ∧ x ≤ 1 :=
        fun x hx => h01 x (List.mem_cons_of_mem a hx)
      have haa : a * a ≤ a := by nlinarith
      have hts := ih ht
      simp only [List.map_cons, List.sum_cons]
      linarith

theorem sq_eq_of_sum_sq_eq_sum (w : List ℚ) (h01 : ∀ x ∈ w, 0 ≤ x ∧ x ≤ 1)
    (heq : (w.map (fun x => x * x)).sum = w.sum) : ∀ x ∈ w, x * x = x := by
  induction w with
  | nil => simp
  | cons a t ih =>
      obtain ⟨ha0, ha1⟩ := h01 a (by simp)
      have ht : ∀ x ∈ t, 0 ≤ x ∧ x ≤ 1 :=
        fun x hx => h01 x (List.mem_cons_of_mem a hx)
      have haa : a * a ≤ a := by nlinarith
      have hts : (t.map (fun x => x * x)).sum ≤ t.sum := sum_sq_le_sum t ht
      have h1 : a * a + (t.map (fun x => x * x)).sum = a + t.sum := by
        simpa using heq
      intro x hx
      rcases List.mem_cons.mp hx with rfl | hx
      · linarith
      · exact ih ht (by linarith) x hx

theorem onehot_of_zero_one_sum_one (w : List ℚ) (h : ∀ x ∈ w, x = 0 ∨ x = 1)
    (hsum : w.sum = 1) :
    ∃ l1 l2, w = l1 ++ 1 :: l2 ∧ (∀ x ∈ l1, x = 0) ∧ (∀ x ∈ l2, x = 0) := by
  induction w with
  | nil => simp at hsum
  | cons a t ih =>
      have ht : ∀ x ∈ t, x = 0 ∨ x = 1 :=
        fun x hx => h x (List.mem_cons_of_mem a hx)
      have hat : a + t.sum = 1 := by simpa using hsum
      rcases h a (by simp) with ha | ha
      · obtain ⟨l1, l2, heq, h1, h2⟩ := ih ht (by linarith)
        refine ⟨a :: l1, l2, by rw [heq] ; rfl, ?_, h2⟩
        intro x hx
        rcases List.mem_cons.mp hx with rfl | hx
        · exact ha
        · exact h1 x hx
      · have htpos : ∀ x ∈ t, 0 ≤ x := by
          intro x hx ; rcases ht x hx with rfl | rfl <;> norm_num
        have hzero := all_zero_of_nonneg_sum_zero t htpos (by linarith)
        exact ⟨[], t, by rw [ha] ; rfl, by simp, hzero⟩

theorem sum_sq_onehot (l1 l2 : List ℚ) (h1 : ∀ x ∈ l1, x = 0)
    (h2 : ∀ x ∈ l2, x = 0) :
    ((l1 ++ 1 :: l2).map (fun x => x * x)).sum = 1 := by
  rw [List.map_append, List.sum_append, List.map_cons, List.sum_cons]
  have e1 : (l1.map (fun x => x * x)).sum = 0 := by
    apply List.sum_eq_zero
    intro y hy
    obtain ⟨x, hx, rfl⟩ := List.mem_map.mp hy
    rw [h1 x hx] ; ring
  have e2 : (l2.map (fun x => x * x)).sum = 0 := by
    apply List.sum_eq_zero
    intro y hy
    obtain ⟨x, hx, rfl⟩ := List.mem_map.mp hy
    rw [h2 x hx] ; ring
  rw [e1, e2] ; norm_num

theorem sum_sq_sub_const (w : List ℚ) (c : ℚ) :
    (w.map (fun x => (x - c) * (x - c))).sum =
      (w.map (fun x => x * x)).sum - 2 * c * w.sum + (w.length : ℚ) * (c * c) := by
  induction w with
  | nil => simp
  | cons a t ih =>
      simp only [List.map_cons, List.sum_cons, List.length_cons, ih]
      push_cast
      ring

theorem sum_sq_sub_nonneg (w : List ℚ) (c : ℚ) :
    0 ≤ (w.map (fun x => (x - c) * (x - c))).sum := by
  apply List.sum_nonneg
  intro y hy
  obtain ⟨x, _, rfl⟩ := List.mem_map.mp hy
  exact mul_self_nonneg _

theorem eq_const_of_sum_sq_sub_zero (w : List ℚ) (c : ℚ)
    (h : (w.map (fun x => (x - c) * (x - c))).sum = 0) : ∀ x ∈ w, x = c := by
  have hnn : ∀ y ∈ w.map (fun x => (x - c) * (x - c)), 0 ≤ y := by
    intro y hy ; obtain ⟨x, _, rfl⟩ := List.mem_map.mp hy
    exact mul_self_nonneg _
  have hall := all_zero_of_nonneg_sum_zero _ hnn h
  intro x hx
  have hx0 := hall _ (List.mem_map.mpr ⟨x, hx, rfl⟩)
  exact sub_eq_zero.mp (mul_self_eq_zero.mp hx0)

/-- C8: for a nonnegative weight vector of length `n` that sums to 1, the
effective sample size `n_eff = 1/(w·w)` used by `resample_test` satisfies
`1 ≤ n_eff ≤ n_particles`; it equals `n_particles` exactly when the
weights are the uniform vector, and equals 1 exactly when a single weight
is 1 and every other weight is 0. -/
theorem n_eff_bounds (n : ℕ) (w : List ℚ) (hlen : w.length = n)
    (hpos : ∀ x ∈ w, 0 ≤ x) (hsum : w.sum = 1) :
    (1 ≤ n_eff w ∧ n_eff w ≤ (n : ℚ)) ∧
    (n_eff w = (n : ℚ) ↔ w = uniformWeights n) ∧
    (n_eff w = 1 ↔ ∃ l1 l2, w = l1 ++ 1 :: l2 ∧
      (∀ x ∈ l1, x = 0) ∧ (∀ x ∈ l2, x = 0)) := by
  have hwne : w ≠ [] := by
    intro h ; rw [h] at hsum ; simp at hsum
  have hn : 1 ≤ n := by
    rcases n with _ | n
    · rw [List.length_eq_zero] at hlen ; exact absurd hlen hwne
    · exact Nat.succ_le_succ (Nat.zero_le n)
  have hncast : (0 : ℚ) < (n : ℚ) := by exact_mod_cast hn
  have h01 : ∀ x ∈ w, 0 ≤ x ∧ x ≤ 1 := by
    intro x hx
    exact ⟨hpos x hx, hsum ▸ List.single_le_sum hpos x hx⟩
  have hS2 : n_eff w = 1 / (w.map (fun x => x * x)).sum := by
    rw [n_eff, dot_self_eq_sum_sq]
  have hub : (w.map (fun x => x * x)).sum ≤ 1 := hsum ▸ sum_sq_le_sum w h01
  have hid : (w.map (fun x => (x - 1 / (n : ℚ)) * (x - 1 / (n : ℚ)))).sum
      = (w.map (fun x => x * x)).sum - 1 / (n : ℚ) := by
    rw [sum_sq_sub_const w (1 / (n : ℚ)), hsum, hlen]
    field_simp
    ring
  have hlb : 1 / (n : ℚ) ≤ (w.map (fun x => x * x)).sum := by
    have h0 := sum_sq_sub_nonneg w (1 / (n : ℚ))
    rw [hid] at h0 ; linarith
  have hS2pos : 0 < (w.map (fun x => x * x)).sum :=
    lt_of_lt_of_le (by positivity) hlb
  refine ⟨⟨?_, ?_⟩, ?_, ?_⟩
  · rw [hS2, le_div_iff hS2pos, one_mul] ; exact hub
  · rw [hS2, div_le_iff hS2pos, mul_comm]
    exact (div_le_iff hncast).mp hlb
  · rw [hS2]
    constructor
    · intro h
      rw [div_eq_iff hS2pos.ne'] at h
      have hSval : (w.map (fun x => x * x)).sum = 1 / n := by
        rw [eq_div_iff hncast.ne']
        linear_combination -h
      have hzero : (w.map (fun x => (x - 1 / (n : ℚ)) * (x - 1 / (n : ℚ)))).sum = 0 := by
        rw [hid, hSval] ; ring
      have hall := eq_const_of_sum_sq_sub_zero w (1 / (n : ℚ)) hzero
      rw [uniformWeights]
      exact List.eq_replicate_iff.mpr ⟨hlen, hall⟩
    · intro h
      rw [h, uniformWeights]
      simp only [List.map_replicate, List.sum_replicate, nsmul_eq_mul]
      field_simp
  · rw [hS2]
    constructor
    · intro h
      have hSval : (w.map (fun x => x * x)).sum = 1 := by
        field_simp at h ; linarith
      have hsq := sq_eq_of_sum_sq_eq_sum w h01 (by rw [hSval, hsum])
      have h01' : ∀ x ∈ w, x = 0 ∨ x = 1 :=
        fun x hx => (mul_self_eq_self_iff x).mp (hsq x hx)
      exact onehot_of_zero_one_sum_one w h01' hsum
    · rintro ⟨l1, l2, rfl, h1, h2⟩
      rw [sum_sq_onehot l1 l2 h1 h2]
      norm_num

theorem n_eff_bounds_witness :
    (1 ≤ n_eff [(1 : ℚ) / 2, 1 / 2] ∧
      n_eff [(1 : ℚ) / 2, 1 / 2] ≤ ((2 : ℕ) : ℚ)) ∧
    (n_eff [(1 : ℚ) / 2, 1 / 2] = ((2 : ℕ) : ℚ) ↔
      [(1 : ℚ) / 2, 1 / 2] = uniformWeights 2) ∧
    (n_eff [(1 : ℚ) / 2, 1 / 2] = 1 ↔
      ∃ l1 l2, [(1 : ℚ) / 2, 1 / 2] = l1 ++ 1 :: l2 ∧
        (∀ x ∈ l1, x = 0) ∧ (∀ x ∈ l2, x = 0)) :=
  n_eff_bounds 2 [1 / 2, 1 / 2] (by norm_num)
    (by intro x hx ; simp at hx ; rcases hx with rfl | rfl <;> norm_num)
    (by norm_num)

end ParticlePdf
